import Mathlib

/-!
# Verification of `sentiment_analyzer.py`

A shallow embedding of the sentiment-analysis program: the text
normalizer `clean_text`, the scorer `calculate_sentiment`, the
aggregation pipeline of `analyze_reviews`, and `generate_insights`.
Python floats are modelled by `ℚ`; `round(x, d)` is modelled by exact
round-half-to-even on rationals; Python `str` operations are modelled
on `List Char` restricted to the ASCII behaviour the program relies on.
-/

/-- The ASCII whitespace characters matched by Python's `\s` regex class,
`str.split()` and `str.strip()`: space, tab, newline, carriage return,
vertical tab and form feed. -/
def isPySpace (c : Char) : Bool :=
  c = ' ' || c = '\t' || c = '\n' || c = '\r' || c = '\x0b' || c = '\x0c'

/-- The character class `[a-zA-Z]` of the regex in `clean_text`. -/
def isAsciiLetter (c : Char) : Bool :=
  (97 ≤ c.toNat && c.toNat ≤ 122) || (65 ≤ c.toNat && c.toNat ≤ 90)

/-- Python's `str.lower()` on the ASCII range: uppercase letters are
shifted down by 32, all other characters are unchanged. -/
def pyLower (c : Char) : Char :=
  if 65 ≤ c.toNat && c.toNat ≤ 90 then Char.ofNat (c.toNat + 32) else c

/-- The characters kept by `re.sub(r'[^a-zA-Z\s]', '', text)`. -/
def keepChar (c : Char) : Bool := isAsciiLetter c || isPySpace c

/-- The composite `re.sub(r'[^a-zA-Z\s]', '', text.lower())` on a character list. -/
def lowerFilter (l : List Char) : List Char := (l.map pyLower).filter keepChar

/-- Worker for `splitWs`: `acc` holds the characters of the current
in-progress token, in reverse. -/
def splitWsAux : List Char → List Char → List (List Char)
  | [], acc => if acc.isEmpty then [] else [acc.reverse]
  | c :: cs, acc =>
    if isPySpace c then
      if acc.isEmpty then splitWsAux cs [] else acc.reverse :: splitWsAux cs []
    else splitWsAux cs (c :: acc)

/-- Python's `str.split()` (split on whitespace runs, no empty tokens). -/
def splitWs (l : List Char) : List (List Char) := splitWsAux l []

/-- Python's `' '.join(tokens)` on character lists. -/
def joinSpace : List (List Char) → List Char
  | [] => []
  | [t] => t
  | t :: t' :: ts => t ++ ' ' :: joinSpace (t' :: ts)

/-- The character-list body of `clean_text`:
`' '.join(re.sub(r'[^a-zA-Z\s]', '', text.lower()).split())`. -/
def clean_textL (l : List Char) : List Char := joinSpace (splitWs (lowerFilter l))

/-- The method `SimpleSentimentAnalyzer.clean_text`.  The argument is an
`Option String` so that Python's `None` is representable; the
`if not text` guard maps both `None` and `""` to `""`. -/
def clean_text (text : Option String) : String :=
  match text with
  | none => ""
  | some s => if s = "" then "" else String.mk (clean_textL s.toList)

/-- The set `self.positive_words` (a Python `set`; modelled as the list of its
elements, used only through membership). -/
def positive_words : List String :=
  ["amazing", "excellent", "fantastic", "great", "wonderful", "awesome",
   "perfect", "love", "best", "good", "nice", "beautiful", "outstanding",
   "brilliant", "superb", "magnificent", "incredible", "marvelous",
   "exceptional", "impressive", "delightful", "pleased", "satisfied",
   "happy", "recommend", "quality", "fast", "quick", "easy", "comfortable"]

/-- The set `self.negative_words`. -/
def negative_words : List String :=
  ["terrible", "awful", "horrible", "bad", "worst", "hate", "disappointing",
   "useless", "waste", "poor", "cheap", "broken", "defective", "slow",
   "difficult", "hard", "uncomfortable", "annoying", "frustrating",
   "expensive", "overpriced", "fake", "fraud", "scam", "regret",
   "return", "refund", "complaint", "problem", "issue", "fail"]

/-- The token list `words = clean_text.split()` used by
`calculate_sentiment`. -/
def wordsOf (s : String) : List String :=
  (splitWs (clean_text (some s)).toList).map String.mk

/-- Round a rational to the nearest integer, halves to even: the rounding
used by Python's `round`. -/
def rhe (x : ℚ) : ℤ :=
  let f := ⌊x⌋
  if x - (f : ℚ) < 1/2 then f
  else if (1:ℚ)/2 < x - (f : ℚ) then f + 1
  else if 2 ∣ f then f else f + 1

/-- Python's `round(x, d)` on exact rationals. -/
def pyRound (x : ℚ) (d : ℕ) : ℚ := ((rhe (x * 10 ^ d) : ℚ)) / 10 ^ d

/-- The method `SimpleSentimentAnalyzer.calculate_sentiment`: returns the raw
(unrounded) polarity, subjectivity and the sentiment label. -/
def calculate_sentiment (text : String) : ℚ × ℚ × String :=
  let words := wordsOf text
  if words.isEmpty then (0, 0, "neutral")
  else
    let positive_count := words.countP (fun w => positive_words.contains w)
    let negative_count := words.countP (fun w => negative_words.contains w)
    let total_sentiment_words := positive_count + negative_count
    let polarity : ℚ :=
      if total_sentiment_words = 0 then 0
      else ((positive_count : ℚ) - (negative_count : ℚ)) / (words.length : ℚ)
    let subjectivity : ℚ := (total_sentiment_words : ℚ) / (words.length : ℚ)
    let sentiment :=
      if polarity > 1/10 then "positive"
      else if polarity < -(1/10) then "negative"
      else "neutral"
    (polarity, subjectivity, sentiment)

/-- The test `not review_text.strip()`: true exactly when the string is empty or
all-whitespace. -/
def isBlank (s : String) : Bool := s.toList.all isPySpace

/-- A CSV row as `analyze_reviews` reads it, after the defaulting `.get`
accesses: `review_id = row.get('Review_ID', '')`,
`review_text = row.get('Review_Text', '')`,
`category = row.get('Product_Category', 'Unknown')`,
`verified = (row.get('Verified_Purchase', 'No') == 'Yes')`.
`rating` models `float(row.get('Rating', 0))`: `some q` when the field
converts to the number `q`, `none` when `float` raises `ValueError`. -/
structure RawReviewRow where
  review_id : String
  review_text : String
  rating : Option ℚ
  category : String
  verified : Bool
deriving DecidableEq

/-- A row whose rating has been converted successfully. -/
structure ReviewRow where
  review_id : String
  review_text : String
  rating : ℚ
  category : String
  verified : Bool
deriving DecidableEq

/-- The per-review dictionary `review_result` built in the loop of
`analyze_reviews`; `polarity` and `subjectivity` are stored rounded to 3
decimals. -/
structure ScoredReview where
  review_id : String
  review_text : String
  rating : ℚ
  sentiment : String
  polarity : ℚ
  subjectivity : ℚ
  category : String
  verified : Bool
deriving DecidableEq

/-- The word-analysis block of the results dictionary. -/
structure WordAnalysis where
  most_common : List (String × ℕ)
  total_unique_words : ℕ
deriving DecidableEq

/-- The dictionary built by `generate_insights` when `total_reviews > 0`;
the two extremal-review entries are only present when `results['reviews']`
is nonempty, hence the `Option`. -/
structure Insights where
  positive_percentage : ℚ
  negative_percentage : ℚ
  neutral_percentage : ℚ
  overall_trend : String
  most_positive_review : Option (String × ℚ)
  most_negative_review : Option (String × ℚ)
deriving DecidableEq

/-- The `results` dictionary of `analyze_reviews`; the three counters of
`sentiment_distribution` are separate fields.  `insights` is `none` for the
empty dictionary returned by `generate_insights` when there are no
reviews. -/
structure Results where
  total_reviews : ℕ
  dist_positive : ℕ
  dist_negative : ℕ
  dist_neutral : ℕ
  average_polarity : ℚ
  average_subjectivity : ℚ
  satisfaction_score : ℚ
  reviews : List ScoredReview
  insights : Option Insights
  word_analysis : WordAnalysis
deriving DecidableEq

/-- The mutable accumulators of the review loop in `analyze_reviews`. -/
structure LoopState where
  reviews : List ScoredReview
  dist_positive : ℕ
  dist_negative : ℕ
  dist_neutral : ℕ
  polarities : List ℚ
  subjectivities : List ℚ
  all_words : List String
deriving DecidableEq

def initState : LoopState := ⟨[], 0, 0, 0, [], [], []⟩

/-- One iteration of the `for review in reviews_data` loop: skip the row
if its text is blank, otherwise score it and update every accumulator. -/
def processReview (st : LoopState) (r : ReviewRow) : LoopState :=
  if isBlank r.review_text then st
  else
    let res := calculate_sentiment r.review_text
    let sr : ScoredReview :=
      { review_id := r.review_id
        review_text := r.review_text
        rating := r.rating
        sentiment := res.2.2
        polarity := pyRound res.1 3
        subjectivity := pyRound res.2.1 3
        category := r.category
        verified := r.verified }
    { reviews := st.reviews ++ [sr]
      dist_positive := st.dist_positive + (if res.2.2 = "positive" then 1 else 0)
      dist_negative := st.dist_negative + (if res.2.2 = "negative" then 1 else 0)
      dist_neutral := st.dist_neutral + (if res.2.2 = "neutral" then 1 else 0)
      polarities := st.polarities ++ [res.1]
      subjectivities := st.subjectivities ++ [res.2.1]
      all_words := st.all_words ++ (wordsOf r.review_text).filter (fun w => 3 < w.length) }

def runLoop (rows : List ReviewRow) : LoopState := rows.foldl processReview initState

/-- The distinct elements of a list, each kept at its first occurrence,
in order of first occurrence: the key order of a Python dict/`Counter`
built by insertion. -/
def firstDedup : List String → List String
  | [] => []
  | x :: xs => x :: firstDedup (xs.filter (fun w => w != x))
termination_by l => l.length
decreasing_by
  simp only [List.length_cons]
  exact Nat.lt_succ_of_le (List.length_filter_le _ _)

/-- The items of `collections.Counter(ws)`: `(word, multiplicity)` pairs in
first-occurrence order. -/
def counterItems (ws : List String) : List (String × ℕ) :=
  (firstDedup ws).map (fun w => (w, ws.count w))

/-- Insert into a list sorted by strictly decreasing-or-equal count,
after every element with a strictly larger count and before every element
with a smaller-or-equal count (stability: the inserted element precedes
later-encountered equals). -/
def insertByCount (x : String × ℕ) : List (String × ℕ) → List (String × ℕ)
  | [] => [x]
  | y :: ys => if x.2 < y.2 then y :: insertByCount x ys else x :: y :: ys

/-- Stable descending sort by count, the ordering contract of
`heapq.nlargest` / `Counter.most_common`. -/
def sortByCountDesc : List (String × ℕ) → List (String × ℕ)
  | [] => []
  | x :: xs => insertByCount x (sortByCountDesc xs)

/-- One comparison step of Python's `max(..., key=lambda x: x['polarity'])`:
the current candidate is kept unless the new element is strictly
greater. -/
def maxStep (best x : ScoredReview) : ScoredReview :=
  if best.polarity < x.polarity then x else best

/-- One comparison step of Python's `min(..., key=...)`: the current
candidate is kept unless the new element is strictly smaller. -/
def minStep (best x : ScoredReview) : ScoredReview :=
  if x.polarity < best.polarity then x else best

/-- Python max over the reviews keyed by polarity: the first maximum wins. -/
def maxByPolarity : List ScoredReview → Option ScoredReview
  | [] => none
  | r :: rs => some (rs.foldl maxStep r)

/-- Python min over the reviews keyed by polarity: the first minimum wins. -/
def minByPolarity : List ScoredReview → Option ScoredReview
  | [] => none
  | r :: rs => some (rs.foldl minStep r)

/-- The function `generate_insights`: the empty dictionary (`none`) when
`total_reviews == 0`, otherwise percentages, the trend band of the
satisfaction score, and the extremal reviews with their text truncated to
100 characters plus an unconditional `'...'`. -/
def generate_insights (results : Results) : Option Insights :=
  if results.total_reviews = 0 then none
  else some
    { positive_percentage :=
        pyRound ((results.dist_positive : ℚ) / (results.total_reviews : ℚ) * 100) 1
      negative_percentage :=
        pyRound ((results.dist_negative : ℚ) / (results.total_reviews : ℚ) * 100) 1
      neutral_percentage :=
        pyRound ((results.dist_neutral : ℚ) / (results.total_reviews : ℚ) * 100) 1
      overall_trend :=
        if 70 ≤ results.satisfaction_score then "Highly Positive"
        else if 50 ≤ results.satisfaction_score then "Moderately Positive"
        else if 30 ≤ results.satisfaction_score then "Mixed"
        else "Negative"
      most_positive_review := (maxByPolarity results.reviews).map
        (fun r => (r.review_text.take 100 ++ "...", r.polarity))
      most_negative_review := (minByPolarity results.reviews).map
        (fun r => (r.review_text.take 100 ++ "...", r.polarity)) }

/-- The statistics block of `analyze_reviews` after the loop: totals,
averages, satisfaction score, word analysis and insights. -/
def buildResults (rows : List ReviewRow) : Results :=
  let st := runLoop rows
  let total := st.reviews.length
  let word_freq := counterItems st.all_words
  let base : Results :=
    { total_reviews := total
      dist_positive := st.dist_positive
      dist_negative := st.dist_negative
      dist_neutral := st.dist_neutral
      average_polarity :=
        if 0 < total then pyRound (st.polarities.sum / (st.polarities.length : ℚ)) 3 else 0
      average_subjectivity :=
        if 0 < total then pyRound (st.subjectivities.sum / (st.subjectivities.length : ℚ)) 3
        else 0
      satisfaction_score :=
        if 0 < total then
          pyRound (((st.dist_positive : ℚ) / (total : ℚ)
            - (st.dist_negative : ℚ) / (total : ℚ) + 1) * 50) 1
        else 0
      reviews := st.reviews
      insights := none
      word_analysis :=
        { most_common := (sortByCountDesc word_freq).take 10
          total_unique_words := word_freq.length } }
  { base with insights := generate_insights base }

/-- Defaulting conversion from a raw row, for rows whose rating parses
(`rating = none` never reaches this point on the success path; blank rows
never read their rating). -/
def toReviewRow (r : RawReviewRow) : ReviewRow :=
  { review_id := r.review_id
    review_text := r.review_text
    rating := r.rating.getD 0
    category := r.category
    verified := r.verified }

/-- The `analyze_reviews` entry point at its observable boundary.  The
argument is `none` when `sample_reviews.csv` is missing
(`FileNotFoundError`), otherwise the parsed rows.  A `ValueError` from
`float(...)` on a retained (non-blank) row aborts the run inside the
generic `except`, producing no result; both failure kinds yield `none`.
The fallible conversion is hoisted out of the loop: the observable result
is unchanged, because the loop converts ratings only for retained rows
and aborts the whole run at the first failure. -/
def analyze_reviews (input : Option (List RawReviewRow)) : Option Results :=
  match input with
  | none => none
  | some rows =>
    if rows.all (fun r => isBlank r.review_text || r.rating.isSome)
    then some (buildResults (rows.map toReviewRow))
    else none

/-- The rows that survive the blank-text skip, in input order. -/
def retainedRows (rows : List ReviewRow) : List ReviewRow :=
  rows.filter (fun r => !isBlank r.review_text)

/-- The token stream feeding the word-frequency analysis: the normalized
tokens of length `> 3` of every retained review, in input order. -/
def qualifyingWords (rows : List ReviewRow) : List String :=
  ((retainedRows rows).map (fun r => (wordsOf r.review_text).filter (fun w => 3 < w.length))).flatten

/-! ## Helper lemmas -/

lemma countP_add_countP_le_length {α : Type} (p q : α → Bool)
    (h : ∀ a, ¬(p a = true ∧ q a = true)) :
    ∀ l : List α, l.countP p + l.countP q ≤ l.length := by
  intro l
  induction l with
  | nil => simp
  | cons x xs ih =>
    simp only [List.countP_cons, List.length_cons]
    have hx := h x
    by_cases hp : p x = true <;> by_cases hq : q x = true <;>
      simp [hp, hq] at hx ⊢ <;> omega

lemma lexicons_disjoint_contains (w : String) :
    ¬(positive_words.contains w = true ∧ negative_words.contains w = true) := by
  rintro ⟨hp, hq⟩
  have hp' : w ∈ positive_words := by simpa using hp
  have hq' : w ∈ negative_words := by simpa using hq
  have hall : positive_words.all (fun x => !negative_words.contains x) = true := by decide
  have := List.all_eq_true.mp hall w hp'
  simp only [Bool.not_eq_true'] at this
  rw [this] at hq
  exact Bool.false_ne_true hq

/-! ## C9: the two lexicons are disjoint, so a token feeds at most one
counter and the two counts sum to at most the token count. -/

/-- C9: no word belongs to both lexicons, and therefore
`positive_count + negative_count` never exceeds the token count of any
text. -/
theorem lexicons_disjoint_spec :
    (∀ w : String, w ∈ positive_words → w ∉ negative_words) ∧
    (∀ text : String,
      (wordsOf text).countP (fun w => positive_words.contains w)
        + (wordsOf text).countP (fun w => negative_words.contains w)
        ≤ (wordsOf text).length) := by
  constructor
  · intro w hw hneg
    exact lexicons_disjoint_contains w ⟨by simpa using hw, by simpa using hneg⟩
  · intro text
    exact countP_add_countP_le_length _ _ lexicons_disjoint_contains _

theorem lexicons_disjoint_spec_witness :
    ("amazing" ∈ positive_words) ∧ "amazing" ∉ negative_words :=
  ⟨by decide, lexicons_disjoint_spec.1 "amazing" (by decide)⟩

/-! ## C1: the scorer's formulas. -/

/-- C1: the scorer normalizes and whitespace-splits the text into
`wordsOf text`; with zero tokens it returns `(0, 0, neutral)`; otherwise,
with `p`/`q` the occurrence counts of positive/negative lexicon tokens
and `n` the total token count, polarity is `0` when `p + q = 0` and
`(p - q) / n` otherwise, subjectivity is `(p + q) / n`, and the label is
`positive` iff polarity `> 0.1`, `negative` iff polarity `< -0.1`, and
`neutral` otherwise (polarity exactly `0.1` is neutral). -/
theorem calculate_sentiment_spec (text : String) :
    (wordsOf text = [] → calculate_sentiment text = (0, 0, "neutral")) ∧
    (wordsOf text ≠ [] →
      calculate_sentiment text =
        ((if (wordsOf text).countP (fun w => positive_words.contains w)
              + (wordsOf text).countP (fun w => negative_words.contains w) = 0 then 0
          else (((wordsOf text).countP (fun w => positive_words.contains w) : ℚ)
              - ((wordsOf text).countP (fun w => negative_words.contains w) : ℚ))
            / ((wordsOf text).length : ℚ)),
         (((wordsOf text).countP (fun w => positive_words.contains w)
              + (wordsOf text).countP (fun w => negative_words.contains w) : ℕ) : ℚ)
            / ((wordsOf text).length : ℚ),
         (if (1 : ℚ)/10 <
              (if (wordsOf text).countP (fun w => positive_words.contains w)
                  + (wordsOf text).countP (fun w => negative_words.contains w) = 0 then 0
               else (((wordsOf text).countP (fun w => positive_words.contains w) : ℚ)
                  - ((wordsOf text).countP (fun w => negative_words.contains w) : ℚ))
                / ((wordsOf text).length : ℚ)) then "positive"
          else if (if (wordsOf text).countP (fun w => positive_words.contains w)
                  + (wordsOf text).countP (fun w => negative_words.contains w) = 0 then 0
               else (((wordsOf text).countP (fun w => positive_words.contains w) : ℚ)
                  - ((wordsOf text).countP (fun w => negative_words.contains w) : ℚ))
                / ((wordsOf text).length : ℚ)) < -(1/10) then "negative"
          else "neutral"))) := by
  constructor
  · intro h
    simp [calculate_sentiment, h]
  · intro h
    simp only [calculate_sentiment, List.isEmpty_iff]
    rw [if_neg h]

theorem calculate_sentiment_spec_witness :
    (wordsOf "This product is amazing and the quality is great" ≠ []) ∧
    (calculate_sentiment "This product is amazing and the quality is great").1 = 1/3 := by
  refine ⟨by decide, ?_⟩
  rw [(calculate_sentiment_spec "This product is amazing and the quality is great").2
    (by decide)]
  with_unfolding_all rfl

/-! ## C2: range bounds of the scorer's outputs. -/

/-- C2: the scorer's subjectivity lies in `[0, 1]` and dominates the
absolute polarity, for every input text. -/
theorem polarity_subjectivity_bounds (text : String) :
    0 ≤ (calculate_sentiment text).2.1 ∧ (calculate_sentiment text).2.1 ≤ 1 ∧
    |(calculate_sentiment text).1| ≤ (calculate_sentiment text).2.1 := by
  by_cases hw : wordsOf text = []
  · simp [calculate_sentiment, hw]
  · have hn : 0 < ((wordsOf text).length : ℚ) := by
      have := List.length_pos.mpr hw
      exact_mod_cast this
    have hpq : (wordsOf text).countP (fun w => positive_words.contains w)
        + (wordsOf text).countP (fun w => negative_words.contains w)
        ≤ (wordsOf text).length :=
      countP_add_countP_le_length _ _ lexicons_disjoint_contains _
    simp only [calculate_sentiment, List.isEmpty_iff, if_neg hw]
    set p := (wordsOf text).countP (fun w => positive_words.contains w) with hp
    set q := (wordsOf text).countP (fun w => negative_words.contains w) with hq
    refine ⟨by positivity, ?_, ?_⟩
    · rw [div_le_one hn]
      exact_mod_cast hpq
    · by_cases hz : p + q = 0
      · simp [hz]
      · rw [if_neg hz, abs_div, abs_of_pos hn]
        gcongr
        push_cast
        rw [abs_sub_le_iff]
        constructor <;>
          [linarith [Nat.cast_nonneg (α := ℚ) q]; linarith [Nat.cast_nonneg (α := ℚ) p]]

/-! ## Loop invariants of `analyze_reviews` -/

lemma ite_label_cases (c1 c2 : Prop) [Decidable c1] [Decidable c2] :
    (if c1 then "positive" else if c2 then "negative" else "neutral") = "positive" ∨
    (if c1 then "positive" else if c2 then "negative" else "neutral") = "negative" ∨
    (if c1 then "positive" else if c2 then "negative" else "neutral") = "neutral" := by
  split_ifs <;> simp

lemma sentiment_label_cases (text : String) :
    (calculate_sentiment text).2.2 = "positive" ∨ (calculate_sentiment text).2.2 = "negative" ∨
      (calculate_sentiment text).2.2 = "neutral" := by
  simp only [calculate_sentiment]
  split
  · simp
  · exact ite_label_cases _ _

lemma processReview_blank {r : ReviewRow} (h : isBlank r.review_text = true)
    (st : LoopState) : processReview st r = st := by
  simp [processReview, h]

lemma foldl_dist_sum (rows : List ReviewRow) : ∀ st : LoopState,
    st.dist_positive + st.dist_negative + st.dist_neutral = st.reviews.length →
    (rows.foldl processReview st).dist_positive + (rows.foldl processReview st).dist_negative
        + (rows.foldl processReview st).dist_neutral
      = (rows.foldl processReview st).reviews.length := by
  induction rows with
  | nil => intro st h; simpa using h
  | cons r rows ih =>
    intro st h
    simp only [List.foldl_cons]
    apply ih
    by_cases hb : isBlank r.review_text
    · rw [processReview_blank hb]; exact h
    · rcases sentiment_label_cases r.review_text with hs | hs | hs <;>
        simp [processReview, hb, hs] <;> omega

lemma foldl_processReview_retained (rows : List ReviewRow) : ∀ st : LoopState,
    rows.foldl processReview st = (retainedRows rows).foldl processReview st := by
  induction rows with
  | nil => intro st; rfl
  | cons r rows ih =>
    intro st
    by_cases hb : isBlank r.review_text
    · simp only [retainedRows, List.filter_cons, hb, Bool.not_true, List.foldl_cons,
        processReview_blank hb]
      exact ih st
    · simp only [retainedRows, List.filter_cons, Bool.not_eq_true'] at *
      simp [hb, ih]

lemma foldl_reviews_nonblank (rows : List ReviewRow) : ∀ st : LoopState,
    (∀ sr ∈ st.reviews, isBlank sr.review_text = false) →
    ∀ sr ∈ (rows.foldl processReview st).reviews, isBlank sr.review_text = false := by
  induction rows with
  | nil => intro st h; exact h
  | cons r rows ih =>
    intro st h
    simp only [List.foldl_cons]
    apply ih
    by_cases hb : isBlank r.review_text
    · rw [processReview_blank hb]; exact h
    · intro sr hsr
      simp only [processReview, hb, Bool.false_eq_true, if_false, List.mem_append,
        List.mem_singleton] at hsr
      rcases hsr with hsr | hsr
      · exact h sr hsr
      · subst hsr
        simpa using hb

/-! ## C3: blank reviews are excluded from every aggregate, and the
distribution counts sum to the total. -/

/-- C3: the three `sentiment_distribution` counters sum exactly to
`total_reviews`; dropping the blank-text rows from the input leaves the
entire result unchanged (so blank rows contribute to no aggregate); and
no review with blank text ever appears in the output sequence. -/
theorem blank_reviews_excluded (rows : List ReviewRow) :
    ((buildResults rows).dist_positive + (buildResults rows).dist_negative
        + (buildResults rows).dist_neutral = (buildResults rows).total_reviews) ∧
    buildResults rows = buildResults (retainedRows rows) ∧
    ∀ sr ∈ (buildResults rows).reviews, isBlank sr.review_text = false := by
  refine ⟨?_, ?_, ?_⟩
  · exact foldl_dist_sum rows initState (by simp [initState])
  · have h : runLoop rows = runLoop (retainedRows rows) :=
      foldl_processReview_retained rows initState
    simp only [buildResults, h]
  · exact foldl_reviews_nonblank rows initState (by simp [initState])

def exampleRowsBlank : List ReviewRow :=
  [⟨"1", "amazing", 5, "A", true⟩, ⟨"2", "   ", 0, "B", false⟩]

theorem blank_reviews_excluded_witness :
    ((buildResults exampleRowsBlank).total_reviews = 1) ∧
    buildResults exampleRowsBlank = buildResults (retainedRows exampleRowsBlank) ∧
    ((⟨"1", "amazing", 5, "positive", 1, 1, "A", true⟩ : ScoredReview)
        ∈ (buildResults exampleRowsBlank).reviews ∧
      isBlank (⟨"1", "amazing", 5, "positive", 1, 1, "A", true⟩ : ScoredReview).review_text
        = false) := by
  refine ⟨by with_unfolding_all rfl, (blank_reviews_excluded exampleRowsBlank).2.1, ?_, ?_⟩
  · with_unfolding_all decide
  · exact (blank_reviews_excluded exampleRowsBlank).2.2 _ (by with_unfolding_all decide)

/-! ## Projections of `buildResults`, and `generate_insights` in the
populated case -/

lemma buildResults_total (rows : List ReviewRow) :
    (buildResults rows).total_reviews = (runLoop rows).reviews.length := rfl

lemma buildResults_dist_positive (rows : List ReviewRow) :
    (buildResults rows).dist_positive = (runLoop rows).dist_positive := rfl

lemma buildResults_dist_negative (rows : List ReviewRow) :
    (buildResults rows).dist_negative = (runLoop rows).dist_negative := rfl

lemma buildResults_reviews (rows : List ReviewRow) :
    (buildResults rows).reviews = (runLoop rows).reviews := rfl

lemma buildResults_satisfaction (rows : List ReviewRow) :
    (buildResults rows).satisfaction_score =
      if 0 < (runLoop rows).reviews.length then
        pyRound ((((runLoop rows).dist_positive : ℚ) / ((runLoop rows).reviews.length : ℚ)
          - ((runLoop rows).dist_negative : ℚ) / ((runLoop rows).reviews.length : ℚ) + 1) * 50) 1
      else 0 := rfl

lemma buildResults_most_common (rows : List ReviewRow) :
    (buildResults rows).word_analysis.most_common =
      (sortByCountDesc (counterItems (runLoop rows).all_words)).take 10 := rfl

lemma buildResults_insights_eq (rows : List ReviewRow) :
    (buildResults rows).insights =
      generate_insights {buildResults rows with insights := none} := rfl

lemma generate_insights_pos (res : Results) (h : res.total_reviews ≠ 0) :
    ∃ ins, generate_insights res = some ins ∧
      ins.overall_trend = (if 70 ≤ res.satisfaction_score then "Highly Positive"
        else if 50 ≤ res.satisfaction_score then "Moderately Positive"
        else if 30 ≤ res.satisfaction_score then "Mixed" else "Negative") ∧
      ins.most_positive_review = (maxByPolarity res.reviews).map
        (fun r => (r.review_text.take 100 ++ "...", r.polarity)) ∧
      ins.most_negative_review = (minByPolarity res.reviews).map
        (fun r => (r.review_text.take 100 ++ "...", r.polarity)) := by
  simp only [generate_insights, if_neg h]
  exact ⟨_, rfl, rfl, rfl, rfl⟩

/-! ## C4: the satisfaction score and the trend banding. -/

/-- C4: with at least one scored review,
`satisfaction_score = round((positive_ratio - negative_ratio + 1) * 50, 1)`
with ratios over the scored-review count; with none it is `0`; and the
trend label is banded on the satisfaction score by inclusive lower bounds
`70/50/30`, in descending order. -/
theorem satisfaction_score_trend (rows : List ReviewRow) :
    ((buildResults rows).total_reviews = 0 → (buildResults rows).satisfaction_score = 0) ∧
    (0 < (buildResults rows).total_reviews →
      (buildResults rows).satisfaction_score =
        pyRound ((((buildResults rows).dist_positive : ℚ)
            / ((buildResults rows).total_reviews : ℚ)
          - ((buildResults rows).dist_negative : ℚ)
            / ((buildResults rows).total_reviews : ℚ) + 1) * 50) 1) ∧
    (0 < (buildResults rows).total_reviews →
      ∃ ins, (buildResults rows).insights = some ins ∧
        ((70 ≤ (buildResults rows).satisfaction_score →
            ins.overall_trend = "Highly Positive") ∧
         (50 ≤ (buildResults rows).satisfaction_score ∧
            (buildResults rows).satisfaction_score < 70 →
            ins.overall_trend = "Moderately Positive") ∧
         (30 ≤ (buildResults rows).satisfaction_score ∧
            (buildResults rows).satisfaction_score < 50 →
            ins.overall_trend = "Mixed") ∧
         ((buildResults rows).satisfaction_score < 30 →
            ins.overall_trend = "Negative"))) := by
  refine ⟨?_, ?_, ?_⟩
  · intro h
    rw [buildResults_satisfaction, buildResults_total] at *
    rw [if_neg (by omega)]
  · intro h
    rw [buildResults_satisfaction, buildResults_total, buildResults_dist_positive,
      buildResults_dist_negative] at *
    rw [if_pos h]
  · intro h
    obtain ⟨ins, hins, htrend, -, -⟩ :=
      generate_insights_pos {buildResults rows with insights := none} (by
        show ¬(buildResults rows).total_reviews = 0
        omega)
    refine ⟨ins, by rw [buildResults_insights_eq]; exact hins, ?_, ?_, ?_, ?_⟩ <;>
      intro hband <;>
      rw [show ({buildResults rows with insights := none} : Results).satisfaction_score
          = (buildResults rows).satisfaction_score from rfl] at htrend <;>
      rw [htrend] <;> split_ifs <;>
      first
        | rfl
        | (exfalso; rcases hband with ⟨hb1, hb2⟩; linarith)
        | (exfalso; linarith)

def exampleRows4 : List ReviewRow :=
  [⟨"1", "amazing", 5, "A", true⟩, ⟨"2", "great", 4, "A", false⟩,
   ⟨"3", "terrible", 1, "B", false⟩, ⟨"4", "table", 3, "B", true⟩]

theorem satisfaction_score_trend_witness :
    (0 < (buildResults exampleRows4).total_reviews) ∧
    (buildResults exampleRows4).satisfaction_score = 125/2 ∧
    ∃ ins, (buildResults exampleRows4).insights = some ins ∧
      ins.overall_trend = "Moderately Positive" := by
  refine ⟨by with_unfolding_all decide, by with_unfolding_all rfl, ?_⟩
  obtain ⟨ins, hins, hb⟩ :=
    (satisfaction_score_trend exampleRows4).2.2 (by with_unfolding_all decide)
  exact ⟨ins, hins, hb.2.1 ⟨by with_unfolding_all decide, by with_unfolding_all decide⟩⟩

/-! ## First-occurrence argmax/argmin of the polarity fold -/

lemma foldl_maxStep_decomp (rs : List ScoredReview) : ∀ r : ScoredReview,
    ∃ pre post, r :: rs = pre ++ (List.foldl maxStep r rs) :: post ∧
      (∀ x ∈ pre, x.polarity < (List.foldl maxStep r rs).polarity) ∧
      (∀ x ∈ post, x.polarity ≤ (List.foldl maxStep r rs).polarity) := by
  induction rs with
  | nil => exact fun r => ⟨[], [], rfl, by simp, by simp⟩
  | cons x xs ih =>
    intro r
    simp only [List.foldl_cons]
    by_cases h : r.polarity < x.polarity
    · have hstep : maxStep r x = x := if_pos h
      rw [hstep]
      obtain ⟨pre, post, heq, hpre, hpost⟩ := ih x
      refine ⟨r :: pre, post, ?_, ?_, hpost⟩
      · rw [List.cons_append, ← heq]
      · intro y hy
        rcases List.mem_cons.mp hy with rfl | hy
        · have hxm : x.polarity ≤ (List.foldl maxStep x xs).polarity := by
            cases pre with
            | nil =>
              simp only [List.nil_append, List.cons.injEq] at heq
              rw [← heq.1]
            | cons p ps =>
              simp only [List.cons_append, List.cons.injEq] at heq
              exact le_of_lt (hpre x (heq.1 ▸ List.mem_cons_self p ps))
          exact lt_of_lt_of_le h hxm
        · exact hpre y hy
    · have hstep : maxStep r x = r := if_neg h
      rw [hstep]
      obtain ⟨pre, post, heq, hpre, hpost⟩ := ih r
      cases pre with
      | nil =>
        simp only [List.nil_append, List.cons.injEq] at heq
        refine ⟨[], x :: xs, by rw [List.nil_append, ← heq.1], by simp, ?_⟩
        intro y hy
        rcases List.mem_cons.mp hy with rfl | hy
        · rw [← heq.1]; exact le_of_not_lt h
        · exact hpost y (heq.2 ▸ hy)
      | cons p ps =>
        simp only [List.cons_append, List.cons.injEq] at heq
        refine ⟨r :: x :: ps, post, ?_, ?_, hpost⟩
        · rw [List.cons_append, List.cons_append, ← heq.2]
        · intro y hy
          have hrm : r.polarity < (List.foldl maxStep r xs).polarity :=
            heq.1 ▸ hpre p (List.mem_cons_self p ps)
          rcases List.mem_cons.mp hy with rfl | hy
          · exact hrm
          rcases List.mem_cons.mp hy with rfl | hy
          · exact lt_of_le_of_lt (le_of_not_lt h) hrm
          · exact hpre y (List.mem_cons_of_mem p hy)

lemma foldl_minStep_decomp (rs : List ScoredReview) : ∀ r : ScoredReview,
    ∃ pre post, r :: rs = pre ++ (List.foldl minStep r rs) :: post ∧
      (∀ x ∈ pre, (List.foldl minStep r rs).polarity < x.polarity) ∧
      (∀ x ∈ post, (List.foldl minStep r rs).polarity ≤ x.polarity) := by
  induction rs with
  | nil => exact fun r => ⟨[], [], rfl, by simp, by simp⟩
  | cons x xs ih =>
    intro r
    simp only [List.foldl_cons]
    by_cases h : x.polarity < r.polarity
    · have hstep : minStep r x = x := if_pos h
      rw [hstep]
      obtain ⟨pre, post, heq, hpre, hpost⟩ := ih x
      refine ⟨r :: pre, post, ?_, ?_, hpost⟩
      · rw [List.cons_append, ← heq]
      · intro y hy
        rcases List.mem_cons.mp hy with rfl | hy
        · have hxm : (List.foldl minStep x xs).polarity ≤ x.polarity := by
            cases pre with
            | nil =>
              simp only [List.nil_append, List.cons.injEq] at heq
              rw [← heq.1]
            | cons p ps =>
              simp only [List.cons_append, List.cons.injEq] at heq
              exact le_of_lt (hpre x (heq.1 ▸ List.mem_cons_self p ps))
          exact lt_of_le_of_lt hxm h
        · exact hpre y hy
    · have hstep : minStep r x = r := if_neg h
      rw [hstep]
      obtain ⟨pre, post, heq, hpre, hpost⟩ := ih r
      cases pre with
      | nil =>
        simp only [List.nil_append, List.cons.injEq] at heq
        refine ⟨[], x :: xs, by rw [List.nil_append, ← heq.1], by simp, ?_⟩
        intro y hy
        rcases List.mem_cons.mp hy with rfl | hy
        · rw [← heq.1]; exact le_of_not_lt h
        · exact hpost y (heq.2 ▸ hy)
      | cons p ps =>
        simp only [List.cons_append, List.cons.injEq] at heq
        refine ⟨r :: x :: ps, post, ?_, ?_, hpost⟩
        · rw [List.cons_append, List.cons_append, ← heq.2]
        · intro y hy
          have hrm : (List.foldl minStep r xs).polarity < r.polarity :=
            heq.1 ▸ hpre p (List.mem_cons_self p ps)
          rcases List.mem_cons.mp hy with rfl | hy
          · exact hrm
          rcases List.mem_cons.mp hy with rfl | hy
          · exact lt_of_lt_of_le hrm (le_of_not_lt h)
          · exact hpre y (List.mem_cons_of_mem p hy)

lemma maxByPolarity_decomp {l : List ScoredReview} {m : ScoredReview}
    (h : maxByPolarity l = some m) :
    ∃ pre post, l = pre ++ m :: post ∧ (∀ x ∈ pre, x.polarity < m.polarity) ∧
      (∀ x ∈ post, x.polarity ≤ m.polarity) := by
  cases l with
  | nil => simp [maxByPolarity] at h
  | cons r rs =>
    simp only [maxByPolarity, Option.some.injEq] at h
    subst h
    exact foldl_maxStep_decomp rs r

lemma minByPolarity_decomp {l : List ScoredReview} {m : ScoredReview}
    (h : minByPolarity l = some m) :
    ∃ pre post, l = pre ++ m :: post ∧ (∀ x ∈ pre, m.polarity < x.polarity) ∧
      (∀ x ∈ post, m.polarity ≤ x.polarity) := by
  cases l with
  | nil => simp [minByPolarity] at h
  | cons r rs =>
    simp only [minByPolarity, Option.some.injEq] at h
    subst h
    exact foldl_minStep_decomp rs r

lemma maxByPolarity_of_ne_nil {l : List ScoredReview} (h : l ≠ []) :
    ∃ m, maxByPolarity l = some m := by
  cases l with
  | nil => exact absurd rfl h
  | cons r rs => exact ⟨_, rfl⟩

lemma minByPolarity_of_ne_nil {l : List ScoredReview} (h : l ≠ []) :
    ∃ m, minByPolarity l = some m := by
  cases l with
  | nil => exact absurd rfl h
  | cons r rs => exact ⟨_, rfl⟩

/-! ## C6: extremal-review selection and snapshot format. -/

/-- C6: with at least one scored review, the insights name a
most-positive review that is a first-occurrence argmax of the stored
polarity (every earlier review is strictly smaller, every later one no
larger), and dually a most-negative review; each snapshot text is the
first 100 characters of the review text with `'...'` appended
unconditionally. -/
theorem insights_extremal_first (rows : List ReviewRow)
    (h : (buildResults rows).reviews ≠ []) :
    ∃ ins, (buildResults rows).insights = some ins ∧
      (∃ pre r post, (buildResults rows).reviews = pre ++ r :: post ∧
        ins.most_positive_review = some (r.review_text.take 100 ++ "...", r.polarity) ∧
        (∀ x ∈ pre, x.polarity < r.polarity) ∧ (∀ x ∈ post, x.polarity ≤ r.polarity)) ∧
      (∃ pre r post, (buildResults rows).reviews = pre ++ r :: post ∧
        ins.most_negative_review = some (r.review_text.take 100 ++ "...", r.polarity) ∧
        (∀ x ∈ pre, r.polarity < x.polarity) ∧ (∀ x ∈ post, r.polarity ≤ x.polarity)) := by
  have htot : (buildResults rows).total_reviews ≠ 0 := by
    rw [buildResults_total]
    rw [buildResults_reviews] at h
    have := List.length_pos.mpr h
    omega
  obtain ⟨ins, hins, -, hmax, hmin⟩ :=
    generate_insights_pos {buildResults rows with insights := none} htot
  have hrev : ({buildResults rows with insights := none} : Results).reviews
      = (buildResults rows).reviews := rfl
  refine ⟨ins, by rw [buildResults_insights_eq]; exact hins, ?_, ?_⟩
  · obtain ⟨m, hm⟩ := maxByPolarity_of_ne_nil h
    obtain ⟨pre, post, heq, hpre, hpost⟩ := maxByPolarity_decomp hm
    refine ⟨pre, m, post, heq, ?_, hpre, hpost⟩
    rw [hmax, hrev, hm]
    rfl
  · obtain ⟨m, hm⟩ := minByPolarity_of_ne_nil h
    obtain ⟨pre, post, heq, hpre, hpost⟩ := minByPolarity_decomp hm
    refine ⟨pre, m, post, heq, ?_, hpre, hpost⟩
    rw [hmin, hrev, hm]
    rfl

def exampleRowsTie : List ReviewRow :=
  [⟨"1", "good", 5, "A", true⟩, ⟨"2", "good nice", 4, "A", true⟩]

set_option maxRecDepth 100000 in
theorem insights_extremal_first_witness :
    ((buildResults exampleRowsTie).reviews ≠ []) ∧
    (∃ ins, (buildResults exampleRowsTie).insights = some ins ∧
      (∃ pre r post, (buildResults exampleRowsTie).reviews = pre ++ r :: post ∧
        ins.most_positive_review = some (r.review_text.take 100 ++ "...", r.polarity) ∧
        (∀ x ∈ pre, x.polarity < r.polarity) ∧ (∀ x ∈ post, x.polarity ≤ r.polarity)) ∧
      (∃ pre r post, (buildResults exampleRowsTie).reviews = pre ++ r :: post ∧
        ins.most_negative_review = some (r.review_text.take 100 ++ "...", r.polarity) ∧
        (∀ x ∈ pre, r.polarity < x.polarity) ∧ (∀ x ∈ post, r.polarity ≤ x.polarity))) ∧
    ((buildResults exampleRowsTie).insights.map Insights.most_positive_review
      = some (some ("good...", 1))) :=
  ⟨by with_unfolding_all decide,
   insights_extremal_first exampleRowsTie (by with_unfolding_all decide),
   by with_unfolding_all rfl⟩

/-! ## C10: the selection compares the stored (3-decimal-rounded)
polarity, not the raw one. -/

lemma foldl_reviews_polarity (rows : List ReviewRow) : ∀ st : LoopState,
    (∀ sr ∈ st.reviews, sr.polarity = pyRound (calculate_sentiment sr.review_text).1 3) →
    ∀ sr ∈ (rows.foldl processReview st).reviews,
      sr.polarity = pyRound (calculate_sentiment sr.review_text).1 3 := by
  induction rows with
  | nil => exact fun st h => h
  | cons r rows ih =>
    intro st h
    simp only [List.foldl_cons]
    apply ih
    by_cases hb : isBlank r.review_text
    · rw [processReview_blank hb]; exact h
    · intro sr hsr
      simp only [processReview, hb, Bool.false_eq_true, if_false, List.mem_append,
        List.mem_singleton] at hsr
      rcases hsr with hsr | rfl
      · exact h sr hsr
      · rfl

lemma buildResults_polarity_rounded (rows : List ReviewRow) :
    ∀ sr ∈ (buildResults rows).reviews,
      sr.polarity = pyRound (calculate_sentiment sr.review_text).1 3 :=
  foldl_reviews_polarity rows initState (by simp [initState])

/-- C10: the extremal-review selection is a first-occurrence
argmax/argmin of the *rounded* polarity `round(raw, 3)` stored in each
review record: every earlier review has a strictly smaller (resp. larger)
rounded value, so reviews whose raw polarities agree to three decimals
are tied and the earlier one wins. -/
theorem extremal_selection_rounded (rows : List ReviewRow)
    (h : (buildResults rows).reviews ≠ []) :
    ∃ ins, (buildResults rows).insights = some ins ∧
      (∃ pre r post, (buildResults rows).reviews = pre ++ r :: post ∧
        ins.most_positive_review = some (r.review_text.take 100 ++ "...",
          pyRound (calculate_sentiment r.review_text).1 3) ∧
        (∀ x ∈ pre, pyRound (calculate_sentiment x.review_text).1 3
            < pyRound (calculate_sentiment r.review_text).1 3) ∧
        (∀ x ∈ post, pyRound (calculate_sentiment x.review_text).1 3
            ≤ pyRound (calculate_sentiment r.review_text).1 3)) ∧
      (∃ pre r post, (buildResults rows).reviews = pre ++ r :: post ∧
        ins.most_negative_review = some (r.review_text.take 100 ++ "...",
          pyRound (calculate_sentiment r.review_text).1 3) ∧
        (∀ x ∈ pre, pyRound (calculate_sentiment r.review_text).1 3
            < pyRound (calculate_sentiment x.review_text).1 3) ∧
        (∀ x ∈ post, pyRound (calculate_sentiment r.review_text).1 3
            ≤ pyRound (calculate_sentiment x.review_text).1 3)) := by
  have hpol := buildResults_polarity_rounded rows
  have htot : (buildResults rows).total_reviews ≠ 0 := by
    rw [buildResults_total]
    rw [buildResults_reviews] at h
    have := List.length_pos.mpr h
    omega
  obtain ⟨ins, hins, -, hmax, hmin⟩ :=
    generate_insights_pos {buildResults rows with insights := none} htot
  have hrev : ({buildResults rows with insights := none} : Results).reviews
      = (buildResults rows).reviews := rfl
  refine ⟨ins, by rw [buildResults_insights_eq]; exact hins, ?_, ?_⟩
  · obtain ⟨m, hm⟩ := maxByPolarity_of_ne_nil h
    obtain ⟨pre, post, heq, hpre, hpost⟩ := maxByPolarity_decomp hm
    have hmr : m ∈ (buildResults rows).reviews := by
      rw [heq]; exact List.mem_append_right _ (List.mem_cons_self _ _)
    refine ⟨pre, m, post, heq, ?_, ?_, ?_⟩
    · rw [hmax, hrev, hm, ← hpol m hmr]
      rfl
    · intro x hx
      have hxr : x ∈ (buildResults rows).reviews := by
        rw [heq]; exact List.mem_append_left _ hx
      rw [← hpol x hxr, ← hpol m hmr]
      exact hpre x hx
    · intro x hx
      have hxr : x ∈ (buildResults rows).reviews := by
        rw [heq]
        exact List.mem_append_right _ (List.mem_cons_of_mem _ hx)
      rw [← hpol x hxr, ← hpol m hmr]
      exact hpost x hx
  · obtain ⟨m, hm⟩ := minByPolarity_of_ne_nil h
    obtain ⟨pre, post, heq, hpre, hpost⟩ := minByPolarity_decomp hm
    have hmr : m ∈ (buildResults rows).reviews := by
      rw [heq]; exact List.mem_append_right _ (List.mem_cons_self _ _)
    refine ⟨pre, m, post, heq, ?_, ?_, ?_⟩
    · rw [hmin, hrev, hm, ← hpol m hmr]
      rfl
    · intro x hx
      have hxr : x ∈ (buildResults rows).reviews := by
        rw [heq]; exact List.mem_append_left _ hx
      rw [← hpol x hxr, ← hpol m hmr]
      exact hpre x hx
    · intro x hx
      have hxr : x ∈ (buildResults rows).reviews := by
        rw [heq]
        exact List.mem_append_right _ (List.mem_cons_of_mem _ hx)
      rw [← hpol x hxr, ← hpol m hmr]
      exact hpost x hx

/-- 25 positive tokens among 37: raw polarity `25/37 ≈ 0.675676`, which
rounds to `0.676`. -/
def textA : String :=
  "good good good good good good good good good good good good good good good good good good good good good good good good good zzz zzz zzz zzz zzz zzz zzz zzz zzz zzz zzz zzz"

/-- 23 positive tokens among 34: raw polarity `23/34 ≈ 0.676471`, also
rounding to `0.676` but distinct from (and larger than) `25/37`. -/
def textB : String :=
  "zzz zzz zzz zzz zzz zzz zzz zzz zzz zzz zzz good good good good good good good good good good good good good good good good good good good good good good good"

def exampleRowsRounded : List ReviewRow :=
  [⟨"1", textA, 5, "A", true⟩, ⟨"2", textB, 4, "A", true⟩]

set_option maxRecDepth 1000000 in
set_option maxHeartbeats 2000000 in
theorem extremal_selection_rounded_witness :
    ((calculate_sentiment textA).1 = 25/37 ∧ (calculate_sentiment textB).1 = 23/34 ∧
      ((25:ℚ)/37 < 23/34) ∧ (25:ℚ)/37 ≠ 23/34) ∧
    (pyRound ((25:ℚ)/37) 3 = 169/250 ∧ pyRound ((23:ℚ)/34) 3 = 169/250) ∧
    ((buildResults exampleRowsRounded).reviews ≠ []) ∧
    ((buildResults exampleRowsRounded).insights.map Insights.most_positive_review
      = some (some (textA.take 100 ++ "...", 169/250))) ∧
    (∃ ins, (buildResults exampleRowsRounded).insights = some ins ∧
      (∃ pre r post, (buildResults exampleRowsRounded).reviews = pre ++ r :: post ∧
        ins.most_positive_review = some (r.review_text.take 100 ++ "...",
          pyRound (calculate_sentiment r.review_text).1 3) ∧
        (∀ x ∈ pre, pyRound (calculate_sentiment x.review_text).1 3
            < pyRound (calculate_sentiment r.review_text).1 3) ∧
        (∀ x ∈ post, pyRound (calculate_sentiment x.review_text).1 3
            ≤ pyRound (calculate_sentiment r.review_text).1 3)) ∧
      (∃ pre r post, (buildResults exampleRowsRounded).reviews = pre ++ r :: post ∧
        ins.most_negative_review = some (r.review_text.take 100 ++ "...",
          pyRound (calculate_sentiment r.review_text).1 3) ∧
        (∀ x ∈ pre, pyRound (calculate_sentiment r.review_text).1 3
            < pyRound (calculate_sentiment x.review_text).1 3) ∧
        (∀ x ∈ post, pyRound (calculate_sentiment r.review_text).1 3
            ≤ pyRound (calculate_sentiment x.review_text).1 3))) :=
  ⟨⟨by with_unfolding_all rfl, by with_unfolding_all rfl, by with_unfolding_all decide⟩,
   ⟨by with_unfolding_all rfl, by with_unfolding_all rfl⟩,
   by with_unfolding_all decide, by with_unfolding_all rfl,
   extremal_selection_rounded exampleRowsRounded (by with_unfolding_all decide)⟩

/-! ## C8: the boundary either aborts with no output or emits one
complete report. -/

/-- C8: a missing input file yields no result; a run whose retained rows
include one whose rating cannot convert aborts with no result; every
other run produces exactly the one complete report
`buildResults` computes.  There is no partial-output mode: the result is
`none` or one fully-built `Results` value. -/
theorem analyze_reviews_boundary :
    (analyze_reviews none = none) ∧
    ∀ rows : List RawReviewRow,
      ((∃ r ∈ rows, isBlank r.review_text = false ∧ r.rating = none) →
        analyze_reviews (some rows) = none) ∧
      ((∀ r ∈ rows, isBlank r.review_text = false → r.rating ≠ none) →
        analyze_reviews (some rows) = some (buildResults (rows.map toReviewRow))) := by
  refine ⟨rfl, fun rows => ⟨?_, ?_⟩⟩
  · rintro ⟨r, hr, hb, hn⟩
    simp only [analyze_reviews]
    rw [if_neg]
    intro hall
    have := List.all_eq_true.mp hall r hr
    rw [hb, hn] at this
    simp at this
  · intro hok
    simp only [analyze_reviews]
    rw [if_pos]
    apply List.all_eq_true.mpr
    intro r hr
    by_cases hb : isBlank r.review_text
    · simp [hb]
    · have hne := hok r hr (by simpa using hb)
      simp only [Bool.or_eq_true]
      right
      rwa [Option.isSome_iff_ne_none]

def exampleRawRows : List RawReviewRow := [⟨"1", "good", some 5, "A", true⟩]

theorem analyze_reviews_boundary_witness :
    (∀ r ∈ exampleRawRows, isBlank r.review_text = false → r.rating ≠ none) ∧
    analyze_reviews (some exampleRawRows)
      = some (buildResults (exampleRawRows.map toReviewRow)) :=
  ⟨by decide, (analyze_reviews_boundary.2 exampleRawRows).2 (by decide)⟩

/-! ## C7: shape of the normalizer's output -/

lemma charOfNat_lower_range : ∀ k, k < 26 → (Char.ofNat (97 + k)).toNat = 97 + k := by
  decide

lemma pyLower_not_upper (c : Char) :
    ¬(65 ≤ (pyLower c).toNat ∧ (pyLower c).toNat ≤ 90) := by
  unfold pyLower
  split
  next h =>
    have hb : 65 ≤ c.toNat ∧ c.toNat ≤ 90 := by
      simpa [Bool.and_eq_true, decide_eq_true_eq] using h
    have hk : c.toNat - 65 < 26 := by omega
    have hr := charOfNat_lower_range (c.toNat - 65) hk
    have h97 : 97 + (c.toNat - 65) = c.toNat + 32 := by omega
    rw [h97] at hr
    rw [hr]
    omega
  next h =>
    intro hc
    apply h
    simp only [Bool.and_eq_true, decide_eq_true_eq]
    omega

lemma mem_lowerFilter {c : Char} {l : List Char} (h : c ∈ lowerFilter l) :
    (97 ≤ c.toNat ∧ c.toNat ≤ 122) ∨ isPySpace c = true := by
  unfold lowerFilter at h
  obtain ⟨hc, hk⟩ := List.mem_filter.mp h
  obtain ⟨c', -, rfl⟩ := List.mem_map.mp hc
  simp only [keepChar, isAsciiLetter, Bool.or_eq_true, Bool.and_eq_true,
    decide_eq_true_eq] at hk
  rcases hk with (hk | hk) | hk
  · exact Or.inl hk
  · exact absurd hk (pyLower_not_upper c')
  · exact Or.inr hk

lemma splitWsAux_tokens (G : Char → Prop) :
    ∀ (l acc : List Char), (∀ c ∈ l, isPySpace c = false → G c) →
      (∀ c ∈ acc, G c ∧ isPySpace c = false) →
      ∀ t ∈ splitWsAux l acc, t ≠ [] ∧ ∀ c ∈ t, G c ∧ isPySpace c = false := by
  intro l
  induction l with
  | nil =>
    intro acc _ hacc t ht
    simp only [splitWsAux] at ht
    by_cases hemp : acc.isEmpty
    · simp [hemp] at ht
    · rw [if_neg hemp] at ht
      rcases List.mem_singleton.mp ht with rfl
      refine ⟨by simpa using List.isEmpty_eq_false.mp (by simpa using hemp), ?_⟩
      intro c hc
      exact hacc c (List.mem_reverse.mp hc)
  | cons c cs ih =>
    intro acc hl hacc t ht
    have hl' : ∀ x ∈ cs, isPySpace x = false → G x :=
      fun x hx => hl x (List.mem_cons_of_mem _ hx)
    simp only [splitWsAux] at ht
    by_cases hsp : isPySpace c
    · rw [if_pos hsp] at ht
      by_cases hemp : acc.isEmpty
      · rw [if_pos hemp] at ht
        exact ih [] hl' (by simp) t ht
      · rw [if_neg hemp] at ht
        rcases List.mem_cons.mp ht with rfl | ht
        · refine ⟨by simpa using List.isEmpty_eq_false.mp (by simpa using hemp), ?_⟩
          intro x hx
          exact hacc x (List.mem_reverse.mp hx)
        · exact ih [] hl' (by simp) t ht
    · rw [if_neg hsp] at ht
      refine ih (c :: acc) hl' ?_ t ht
      intro x hx
      rcases List.mem_cons.mp hx with rfl | hx
      · exact ⟨hl x (List.mem_cons_self _ _) (by simpa using hsp), by simpa using hsp⟩
      · exact hacc x hx

/-- The conjunction of token facts used about `splitWs`. -/
def goodTokens (G : Char → Prop) (ts : List (List Char)) : Prop :=
  ∀ t ∈ ts, t ≠ [] ∧ ∀ c ∈ t, G c ∧ isPySpace c = false

lemma splitWs_tokens (G : Char → Prop) (l : List Char)
    (hl : ∀ c ∈ l, isPySpace c = false → G c) : goodTokens G (splitWs l) :=
  splitWsAux_tokens G l [] hl (by simp)

lemma chain_of_no_space {t : List Char} (h : ∀ c ∈ t, isPySpace c = false) :
    List.Chain' (fun a b => ¬(a = ' ' ∧ b = ' ')) t := by
  induction t with
  | nil => simp
  | cons c cs ih =>
    rw [List.chain'_cons']
    refine ⟨?_, ih fun x hx => h x (List.mem_cons_of_mem _ hx)⟩
    intro y _ hy
    have := h c (List.mem_cons_self _ _)
    rw [hy.1] at this
    simp [isPySpace] at this

lemma ne_space_of_not_pySpace {c : Char} (h : isPySpace c = false) : c ≠ ' ' := by
  intro hc
  rw [hc] at h
  simp [isPySpace] at h

lemma joinSpace_ne_nil {t : List Char} (ts : List (List Char)) (h : t ≠ []) :
    joinSpace (t :: ts) ≠ [] := by
  cases ts with
  | nil => simpa [joinSpace] using h
  | cons t' ts' => simp [joinSpace]

lemma joinSpace_head {t : List Char} (ts : List (List Char)) (h : t ≠ []) :
    (joinSpace (t :: ts)).head? = t.head? := by
  cases ts with
  | nil => rfl
  | cons t' ts' =>
    simp only [joinSpace]
    exact List.head?_append_of_ne_nil t h

lemma joinSpace_mem (G : Char → Prop) :
    ∀ ts : List (List Char), goodTokens G ts →
      ∀ c ∈ joinSpace ts, G c ∨ c = ' ' := by
  intro ts
  induction ts with
  | nil => simp [joinSpace]
  | cons t ts ih =>
    intro h c hc
    cases ts with
    | nil =>
      simp only [joinSpace] at hc
      exact Or.inl (((h t (List.mem_cons_self _ _)).2 c hc).1)
    | cons t' ts' =>
      simp only [joinSpace] at hc
      rcases List.mem_append.mp hc with hc | hc
      · exact Or.inl (((h t (List.mem_cons_self _ _)).2 c hc).1)
      · rcases List.mem_cons.mp hc with rfl | hc
        · exact Or.inr rfl
        · exact ih (fun u hu => h u (List.mem_cons_of_mem _ hu)) c hc

lemma joinSpace_chain (G : Char → Prop) :
    ∀ ts : List (List Char), goodTokens G ts →
      List.Chain' (fun a b => ¬(a = ' ' ∧ b = ' ')) (joinSpace ts) := by
  intro ts
  induction ts with
  | nil => simp [joinSpace]
  | cons t ts ih =>
    intro h
    have ht := h t (List.mem_cons_self _ _)
    cases ts with
    | nil =>
      exact chain_of_no_space fun c hc => (ht.2 c hc).2
    | cons t' ts' =>
      have ht' := h t' (List.mem_cons_of_mem _ (List.mem_cons_self _ _))
      have hrest : goodTokens G (t' :: ts') :=
        fun u hu => h u (List.mem_cons_of_mem _ hu)
      simp only [joinSpace]
      rw [List.chain'_append]
      refine ⟨chain_of_no_space fun c hc => (ht.2 c hc).2, ?_, ?_⟩
      · rw [List.chain'_cons']
        refine ⟨?_, ih hrest⟩
        intro y hy hcontra
        rw [joinSpace_head ts' ht'.1] at hy
        have hyt : y ∈ t' := List.mem_of_mem_head? hy
        exact ne_space_of_not_pySpace (ht'.2 y hyt).2 hcontra.2
      · intro x hx y hy hcontra
        have hxt : x ∈ t := List.mem_of_mem_getLast? hx
        exact ne_space_of_not_pySpace (ht.2 x hxt).2 hcontra.1

lemma joinSpace_head_not_space (G : Char → Prop) (ts : List (List Char))
    (h : goodTokens G ts) : ∀ c ∈ (joinSpace ts).head?, c ≠ ' ' := by
  cases ts with
  | nil => simp [joinSpace]
  | cons t ts' =>
    have ht := h t (List.mem_cons_self _ _)
    intro c hc
    rw [joinSpace_head ts' ht.1] at hc
    exact ne_space_of_not_pySpace (ht.2 c (List.mem_of_mem_head? hc)).2

lemma joinSpace_getLast_not_space (G : Char → Prop) :
    ∀ ts : List (List Char), goodTokens G ts →
      ∀ c ∈ (joinSpace ts).getLast?, c ≠ ' ' := by
  intro ts
  induction ts with
  | nil => simp [joinSpace]
  | cons t ts ih =>
    intro h c hc
    have ht := h t (List.mem_cons_self _ _)
    cases ts with
    | nil =>
      simp only [joinSpace] at hc
      exact ne_space_of_not_pySpace (ht.2 c (List.mem_of_mem_getLast? hc)).2
    | cons t' ts' =>
      have ht' := h t' (List.mem_cons_of_mem _ (List.mem_cons_self _ _))
      have hrest : goodTokens G (t' :: ts') :=
        fun u hu => h u (List.mem_cons_of_mem _ hu)
      simp only [joinSpace, List.getLast?_append] at hc
      have hne : joinSpace (t' :: ts') ≠ [] := joinSpace_ne_nil ts' ht'.1
      have hlast : (' ' :: joinSpace (t' :: ts')).getLast? =
          (joinSpace (t' :: ts')).getLast? := by
        cases hj : joinSpace (t' :: ts') with
        | nil => exact absurd hj hne
        | cons a l => exact List.getLast?_cons_cons
      rw [hlast] at hc
      cases hj : (joinSpace (t' :: ts')).getLast? with
      | none =>
        exact absurd (List.getLast?_eq_none_iff.mp hj) hne
      | some a =>
        rw [hj] at hc
        simp only [Option.or_some, Option.mem_def, Option.some.injEq] at hc
        subst hc
        exact ih hrest a (by rw [hj]; rfl)

/-- C7: `clean_text` is total by construction and returns only lowercase
ASCII letters (codes 97–122, i.e. `a`–`z`) and single spaces, with no
leading, trailing or doubled whitespace; `None` and the empty string map
to the empty string. -/
theorem clean_text_spec (text : Option String) :
    (∀ c ∈ (clean_text text).toList, (97 ≤ c.toNat ∧ c.toNat ≤ 122) ∨ c = ' ') ∧
    List.Chain' (fun a b => ¬(a = ' ' ∧ b = ' ')) (clean_text text).toList ∧
    (∀ c ∈ (clean_text text).toList.head?, c ≠ ' ') ∧
    (∀ c ∈ (clean_text text).toList.getLast?, c ≠ ' ') ∧
    clean_text none = "" ∧ clean_text (some "") = "" := by
  cases text with
  | none => exact ⟨by simp [clean_text], by simp [clean_text], by simp [clean_text],
      by simp [clean_text], rfl, rfl⟩
  | some s =>
    by_cases hs : s = ""
    · subst hs
      exact ⟨by simp [clean_text], by simp [clean_text], by simp [clean_text],
        by simp [clean_text], rfl, rfl⟩
    · have hT : (clean_text (some s)).toList = clean_textL s.toList := by
        simp only [clean_text, if_neg hs]
        rfl
      have htoks : goodTokens (fun c => 97 ≤ c.toNat ∧ c.toNat ≤ 122)
          (splitWs (lowerFilter s.toList)) := by
        apply splitWs_tokens
        intro c hc hns
        rcases mem_lowerFilter hc with h | h
        · exact h
        · rw [h] at hns
          exact absurd hns (by simp)
      rw [hT]
      exact ⟨joinSpace_mem _ _ htoks, joinSpace_chain _ _ htoks,
        joinSpace_head_not_space _ _ htoks, joinSpace_getLast_not_space _ _ htoks,
        rfl, rfl⟩

theorem clean_text_spec_witness :
    ('h' ∈ (clean_text (some "Hello, World!!")).toList) ∧
    ((97 ≤ 'h'.toNat ∧ 'h'.toNat ≤ 122) ∨ 'h' = ' ') :=
  ⟨by decide, (clean_text_spec (some "Hello, World!!")).1 'h' (by decide)⟩

/-! ## C5: properties of `Counter.most_common(10)` -/

lemma length_insertByCount (x : String × ℕ) :
    ∀ l, (insertByCount x l).length = l.length + 1 := by
  intro l
  induction l with
  | nil => rfl
  | cons y ys ih =>
    simp only [insertByCount]
    split
    · simp [ih]
    · simp

lemma length_sortByCountDesc : ∀ l, (sortByCountDesc l).length = l.length := by
  intro l
  induction l with
  | nil => rfl
  | cons x xs ih => simp [sortByCountDesc, length_insertByCount, ih]

lemma mem_insertByCount {z x : String × ℕ} :
    ∀ {l}, z ∈ insertByCount x l ↔ z = x ∨ z ∈ l := by
  intro l
  induction l with
  | nil => simp [insertByCount]
  | cons y ys ih =>
    simp only [insertByCount]
    split
    · simp only [List.mem_cons, ih]
      tauto
    · simp [List.mem_cons]

lemma mem_sortByCountDesc {z : String × ℕ} :
    ∀ {l}, z ∈ sortByCountDesc l ↔ z ∈ l := by
  intro l
  induction l with
  | nil => simp [sortByCountDesc]
  | cons x xs ih =>
    simp only [sortByCountDesc, mem_insertByCount, ih, List.mem_cons]

/-- The strict order realised by a stable descending sort by count:
either a strictly larger count, or an equal count and an earlier rank
(the rank being the first-occurrence position). -/
def rankLT (f : String × ℕ → ℕ) (a b : String × ℕ) : Prop :=
  b.2 < a.2 ∨ (a.2 = b.2 ∧ f a < f b)

lemma insertByCount_pairwise (f : String × ℕ → ℕ) (x : String × ℕ) :
    ∀ l, List.Pairwise (rankLT f) l → (∀ y ∈ l, f x < f y) →
      List.Pairwise (rankLT f) (insertByCount x l) := by
  intro l
  induction l with
  | nil => intro _ _; exact List.pairwise_singleton _ _
  | cons y ys ih =>
    intro hp hf
    rw [List.pairwise_cons] at hp
    obtain ⟨hy, hys⟩ := hp
    simp only [insertByCount]
    split
    next hlt =>
      rw [List.pairwise_cons]
      refine ⟨?_, ih hys fun z hz => hf z (List.mem_cons_of_mem _ hz)⟩
      intro z hz
      rcases mem_insertByCount.mp hz with rfl | hz
      · exact Or.inl hlt
      · exact hy z hz
    next hge =>
      have hxy : y.2 ≤ x.2 := le_of_not_lt hge
      rw [List.pairwise_cons, List.pairwise_cons]
      refine ⟨?_, hy, hys⟩
      intro z hz
      rcases List.mem_cons.mp hz with rfl | hz
      · rcases lt_or_eq_of_le hxy with h | h
        · exact Or.inl h
        · exact Or.inr ⟨h.symm, hf z (List.mem_cons_self _ _)⟩
      · rcases hy z hz with h | h
        · exact Or.inl (lt_of_lt_of_le h hxy)
        · rcases lt_or_eq_of_le hxy with h2 | h2
          · exact Or.inl (by omega)
          · exact Or.inr ⟨by omega, hf z (List.mem_cons_of_mem _ hz)⟩

lemma sortByCountDesc_pairwise (f : String × ℕ → ℕ) :
    ∀ l, List.Pairwise (fun a b => f a < f b) l →
      List.Pairwise (rankLT f) (sortByCountDesc l) := by
  intro l
  induction l with
  | nil => intro _; exact List.Pairwise.nil
  | cons x xs ih =>
    intro hp
    rw [List.pairwise_cons] at hp
    exact insertByCount_pairwise f x _ (ih hp.2)
      fun y hy => hp.1 y (mem_sortByCountDesc.mp hy)

lemma mem_firstDedup : ∀ (l : List String) (a : String), a ∈ firstDedup l ↔ a ∈ l := by
  intro l
  induction l using firstDedup.induct with
  | case1 => intro a; simp [firstDedup]
  | case2 x xs ih =>
    intro a
    simp only [firstDedup, List.mem_cons]
    constructor
    · rintro (rfl | h)
      · exact Or.inl rfl
      · exact Or.inr (List.mem_of_mem_filter ((ih a).mp h))
    · rintro (rfl | h)
      · exact Or.inl rfl
      · by_cases hax : a = x
        · exact Or.inl hax
        · exact Or.inr ((ih a).mpr (List.mem_filter.mpr ⟨h, by simpa using hax⟩))

lemma nodup_firstDedup : ∀ l : List String, (firstDedup l).Nodup := by
  intro l
  induction l using firstDedup.induct with
  | case1 => simp [firstDedup]
  | case2 x xs ih =>
    simp only [firstDedup, List.nodup_cons]
    refine ⟨?_, ih⟩
    intro hx
    have := List.mem_filter.mp ((mem_firstDedup _ _).mp hx)
    simp at this

lemma indexOf_filter_lt (p : String → Bool) :
    ∀ (l : List String) (a b : String), a ∈ l.filter p → b ∈ l.filter p →
      (l.filter p).indexOf a < (l.filter p).indexOf b → l.indexOf a < l.indexOf b := by
  intro l
  induction l with
  | nil => simp
  | cons x xs ih =>
    intro a b ha hb hlt
    by_cases hp : p x
    · rw [List.filter_cons_of_pos hp] at ha hb hlt
      by_cases hax : a = x
      · subst hax
        have hba : b ≠ a := by
          rintro rfl
          rw [List.indexOf_cons_self] at hlt
          exact absurd hlt (lt_irrefl _)
        rw [List.indexOf_cons_self, List.indexOf_cons_ne _ (Ne.symm hba)]
        exact Nat.succ_pos _
      · have hbx : b ≠ x := by
          rintro rfl
          rw [List.indexOf_cons_self] at hlt
          exact Nat.not_lt_zero _ hlt
        rw [List.indexOf_cons_ne _ (Ne.symm hax), List.indexOf_cons_ne _ (Ne.symm hbx)] at hlt
        rw [List.indexOf_cons_ne _ (Ne.symm hax), List.indexOf_cons_ne _ (Ne.symm hbx)]
        have ha' : a ∈ xs.filter p := by
          rcases List.mem_cons.mp ha with h | h
          · exact absurd h hax
          · exact h
        have hb' : b ∈ xs.filter p := by
          rcases List.mem_cons.mp hb with h | h
          · exact absurd h hbx
          · exact h
        exact Nat.succ_lt_succ (ih a b ha' hb' (Nat.lt_of_succ_lt_succ hlt))
    · rw [List.filter_cons_of_neg hp] at ha hb hlt
      have hax : a ≠ x := by
        rintro rfl
        exact hp (List.mem_filter.mp ha).2
      have hbx : b ≠ x := by
        rintro rfl
        exact hp (List.mem_filter.mp hb).2
      rw [List.indexOf_cons_ne _ (Ne.symm hax), List.indexOf_cons_ne _ (Ne.symm hbx)]
      exact Nat.succ_lt_succ (ih a b ha hb hlt)

lemma firstDedup_pairwise_indexOf : ∀ l : List String,
    List.Pairwise (fun a b => l.indexOf a < l.indexOf b) (firstDedup l) := by
  intro l
  induction l using firstDedup.induct with
  | case1 => simp [firstDedup]
  | case2 x xs ih =>
    simp only [firstDedup]
    rw [List.pairwise_cons]
    constructor
    · intro b hb
      have hbf := (mem_firstDedup _ _).mp hb
      have hbx : b ≠ x := by
        have := (List.mem_filter.mp hbf).2
        simpa using this
      rw [List.indexOf_cons_self, List.indexOf_cons_ne _ (Ne.symm hbx)]
      exact Nat.succ_pos _
    · refine ih.imp_of_mem ?_
      intro a b ha hb hab
      have haf := (mem_firstDedup _ _).mp ha
      have hbf := (mem_firstDedup _ _).mp hb
      have hax : a ≠ x := by
        have := (List.mem_filter.mp haf).2
        simpa using this
      have hbx : b ≠ x := by
        have := (List.mem_filter.mp hbf).2
        simpa using this
      rw [List.indexOf_cons_ne _ (Ne.symm hax), List.indexOf_cons_ne _ (Ne.symm hbx)]
      exact Nat.succ_lt_succ (indexOf_filter_lt _ xs a b haf hbf hab)

lemma counterItems_pairwise (ws : List String) :
    List.Pairwise (fun a b : String × ℕ => ws.indexOf a.1 < ws.indexOf b.1)
      (counterItems ws) := by
  unfold counterItems
  rw [List.pairwise_map]
  exact firstDedup_pairwise_indexOf ws

lemma counterItems_mem {ws : List String} {pr : String × ℕ}
    (h : pr ∈ counterItems ws) : pr.1 ∈ ws ∧ pr.2 = ws.count pr.1 := by
  unfold counterItems at h
  obtain ⟨w, hw, rfl⟩ := List.mem_map.mp h
  exact ⟨(mem_firstDedup _ _).mp hw, rfl⟩

lemma counterItems_length (ws : List String) :
    (counterItems ws).length = ws.dedup.length := by
  unfold counterItems
  rw [List.length_map]
  rw [← List.toFinset_card_of_nodup (nodup_firstDedup ws),
    ← List.toFinset_card_of_nodup (List.nodup_dedup ws)]
  congr 1
  ext a
  simp [mem_firstDedup]

lemma qualifyingWords_cons (r : ReviewRow) (rows : List ReviewRow) :
    qualifyingWords (r :: rows) =
      (if isBlank r.review_text then []
       else (wordsOf r.review_text).filter (fun w => 3 < w.length))
        ++ qualifyingWords rows := by
  unfold qualifyingWords retainedRows
  by_cases hb : isBlank r.review_text
  · simp [List.filter_cons, hb]
  · simp [List.filter_cons, hb]

lemma foldl_all_words (rows : List ReviewRow) : ∀ st : LoopState,
    (rows.foldl processReview st).all_words = st.all_words ++ qualifyingWords rows := by
  induction rows with
  | nil => intro st; simp [qualifyingWords, retainedRows]
  | cons r rows ih =>
    intro st
    simp only [List.foldl_cons]
    rw [ih, qualifyingWords_cons]
    by_cases hb : isBlank r.review_text
    · rw [processReview_blank hb, if_pos hb, List.nil_append]
    · rw [if_neg hb]
      simp [processReview, hb, List.append_assoc]

lemma runLoop_all_words (rows : List ReviewRow) :
    (runLoop rows).all_words = qualifyingWords rows := by
  rw [runLoop, foldl_all_words]
  simp [initState]

lemma qualifyingWords_length {rows : List ReviewRow} {w : String}
    (h : w ∈ qualifyingWords rows) : 3 < w.length := by
  unfold qualifyingWords at h
  rw [List.mem_flatten] at h
  obtain ⟨l, hl, hw⟩ := h
  obtain ⟨r, -, rfl⟩ := List.mem_map.mp hl
  have := (List.mem_filter.mp hw).2
  simpa using this

/-- C5: `most_common` holds exactly `min 10 d` pairs where `d` is the
number of distinct qualifying words; each pair is a word of length `> 3`
drawn from the retained reviews' token stream together with its
frequency; counts are non-increasing along the list; and two entries with
equal counts appear in order of first occurrence in the token stream. -/
theorem most_common_spec (rows : List ReviewRow) :
    ((buildResults rows).word_analysis.most_common.length
        = min 10 (qualifyingWords rows).dedup.length) ∧
    (∀ pr ∈ (buildResults rows).word_analysis.most_common,
        3 < pr.1.length ∧ pr.1 ∈ qualifyingWords rows ∧
          pr.2 = (qualifyingWords rows).count pr.1) ∧
    List.Pairwise (fun a b : String × ℕ => b.2 ≤ a.2 ∧ (a.2 = b.2 →
        (qualifyingWords rows).indexOf a.1 < (qualifyingWords rows).indexOf b.1))
      (buildResults rows).word_analysis.most_common := by
  have hall : (runLoop rows).all_words = qualifyingWords rows := runLoop_all_words rows
  rw [buildResults_most_common, hall]
  refine ⟨?_, ?_, ?_⟩
  · rw [List.length_take, length_sortByCountDesc, counterItems_length]
  · intro pr hpr
    have hpr' : pr ∈ counterItems (qualifyingWords rows) :=
      mem_sortByCountDesc.mp (List.mem_of_mem_take hpr)
    obtain ⟨hmem, hcount⟩ := counterItems_mem hpr'
    exact ⟨qualifyingWords_length hmem, hmem, hcount⟩
  · have hp := sortByCountDesc_pairwise (fun pr => (qualifyingWords rows).indexOf pr.1)
      (counterItems (qualifyingWords rows)) (counterItems_pairwise _)
    have hp10 := hp.sublist (List.take_sublist 10 _)
    refine hp10.imp ?_
    intro a b hab
    rcases hab with h | h
    · exact ⟨le_of_lt h, fun heq => by omega⟩
    · exact ⟨le_of_eq h.1.symm, fun _ => h.2⟩

def exampleRows5 : List ReviewRow := [⟨"1", "good nice table table", 5, "A", true⟩]

set_option maxRecDepth 200000 in
theorem most_common_spec_witness :
    (("table", 2) ∈ (buildResults exampleRows5).word_analysis.most_common) ∧
    (3 < ("table", 2).1.length ∧ ("table", 2).1 ∈ qualifyingWords exampleRows5 ∧
      ("table", 2).2 = (qualifyingWords exampleRows5).count ("table", 2).1) :=
  ⟨by with_unfolding_all decide,
   (most_common_spec exampleRows5).2.1 ("table", 2) (by with_unfolding_all decide)⟩
